import Mathlib

/-!
Verification of the currency-command parser and the rate-line chunking
loop of the discord bot scripts.

The embedded code lives in
  src/discord/v10.py        (handle_currency_command, lines 370-422),
  src/discord/version4.py   (handle_currency_command, identical parser
                             and chunking loop),
  src/discord/currency.py   (on_message, lines 94-157: same parser main
                             branch, different fallback when the
                             first-token match fails).

Strings are modelled as lists of characters (Python `len` counts
characters, as does `List.length`); numeric amounts are modelled as
exact rationals, which agree with Python floats on every comparison the
claims make.
-/

/-- A produced currency intent: base currency (upper-cased), amount
(default 1.0), optional target currency (upper-cased).  `Option.none`
at the `parse` level models the handler returning without producing an
intent (the NotRecognized sentinel). -/
structure CurrencyIntent where
  base : List Char
  amount : ℚ
  target : Option (List Char)
deriving DecidableEq, Repr

/-- One pass of Python `str.strip().split()`: walk the characters,
accumulating the current token and emitting it at each whitespace run;
empty tokens are discarded, so leading/trailing whitespace is ignored. -/
def tokensGo (cur : List Char) : List Char → List (List Char)
  | [] => if cur = [] then [] else [cur]
  | c :: cs =>
    if c.isWhitespace then
      if cur = [] then tokensGo [] cs else cur :: tokensGo [] cs
    else
      tokensGo (cur ++ [c]) cs

/-- Python `raw.strip().split()` on the embedded character list. -/
def tokens (raw : List Char) : List (List Char) := tokensGo [] raw

/-- The alphabet of the attached-amount capture group: digits and the
decimal dot. -/
def isDigitOrDot (c : Char) : Bool := c.isDigit || c = '.'

/-- Membership in the suffix language of the first-token regular
expression (digits, an optional dot, digits): every character is a
digit or a dot, and there is at most one dot. -/
def digitsDotForm (s : List Char) : Prop :=
  (∀ c ∈ s, c.isDigit = true ∨ c = '.') ∧ s.count '.' ≤ 1

instance instDecidableDigitsDotForm (s : List Char) :
    Decidable (digitsDotForm s) := by
  unfold digitsDotForm
  exact inferInstance

/-- Embeds `re.match` of the anchored first-token pattern of
handle_currency_command: two to four letters (case-insensitive)
optionally followed immediately by a digits-and-optional-dot suffix,
with nothing after it.  Backtracking the greedy letter group can never
rescue a failed match (the suffix group cannot consume a letter and the
pattern is end-anchored), so the match succeeds exactly when the leading
letter run of the token is two to four characters long and the remainder
lies in the suffix language.  Returns (letter group, suffix group);
Python's falsy test on the suffix group treats both a missing and an
empty capture the same way, so the empty suffix stands for both. -/
def currencyAmountMatch (tok : List Char) : Option (List Char × List Char) :=
  let letters := tok.takeWhile Char.isAlpha
  let suffix := tok.dropWhile Char.isAlpha
  if 2 ≤ letters.length ∧ letters.length ≤ 4 ∧ digitsDotForm suffix then
    some (letters, suffix)
  else
    none

/-- Embeds `re.match` of the anchored second-token pattern of
handle_currency_command: one or more digits, optionally followed by a
dot and one or more digits. -/
def isNumericArg (tok : List Char) : Bool :=
  match tok.dropWhile Char.isDigit with
  | [] => !(tok.takeWhile Char.isDigit).isEmpty
  | '.' :: d2 =>
    !(tok.takeWhile Char.isDigit).isEmpty && !d2.isEmpty && d2.all Char.isDigit
  | _ => false

/-- Value of a digit string, most significant digit first. -/
def natOfDigits (s : List Char) : ℕ :=
  s.foldl (fun n c => 10 * n + (c.toNat - 48)) 0

/-- Models Python `float()` on exactly the strings the handler can pass
it — captured groups of the two regular expressions above, all of which
lie in the digits-and-at-most-one-dot language: returns the exact
rational value, or `none` where `float()` raises ValueError (no digit at
all, i.e. the empty string or a lone dot). -/
def pyFloat (s : List Char) : Option ℚ :=
  if digitsDotForm s ∧ s.any Char.isDigit = true then
    let d1 := s.takeWhile Char.isDigit
    let d2 := (s.dropWhile Char.isDigit).drop 1
    some ((natOfDigits d1 : ℚ) + (natOfDigits d2 : ℚ) / (10 : ℚ) ^ d2.length)
  else
    none

/-- The branch of the parser taken when the first-token match succeeded
(common to v10.py, version4.py and currency.py, where this code is
duplicated verbatim): read the attached amount with a try/except
fallback to 1.0; a numeric second token overrides the amount (with an
optional third token as target, further tokens ignored), any other
second token becomes the target (further tokens ignored). -/
def matchedIntent (letters suffix : List Char) (rest : List (List Char)) :
    CurrencyIntent :=
  let base := letters.map Char.toUpper
  let amount : ℚ := if suffix = [] then 1 else (pyFloat suffix).getD 1
  match rest with
  | [] => ⟨base, amount, none⟩
  | second :: rest2 =>
    if isNumericArg second then
      match pyFloat second with
      | some v => ⟨base, v, (rest2.head?).map (List.map Char.toUpper)⟩
      | none => ⟨base, amount, none⟩
    else
      ⟨base, amount, some (second.map Char.toUpper)⟩

/-- The parsing step of handle_currency_command in v10.py (identical in
version4.py): tokenize, then require the first token to match the
currency pattern; on failure the handler returns without an intent. -/
def parse_v10 (raw : List Char) : Option CurrencyIntent :=
  match tokens raw with
  | [] => none
  | first :: rest =>
    match currencyAmountMatch first with
    | none => none
    | some (letters, suffix) => some (matchedIntent letters suffix rest)

/-- The fallback branch of on_message in currency.py, taken when the
first-token match fails: the first token itself becomes the base
currency (upper-cased), the attached amount stays at the default 1.0,
and the second-token handling is repeated verbatim. -/
def fallbackIntent (first : List Char) (rest : List (List Char)) :
    CurrencyIntent :=
  let base := first.map Char.toUpper
  match rest with
  | [] => ⟨base, 1, none⟩
  | second :: rest2 =>
    if isNumericArg second then
      match pyFloat second with
      | some v => ⟨base, v, (rest2.head?).map (List.map Char.toUpper)⟩
      | none => ⟨base, 1, none⟩
    else
      ⟨base, 1, some (second.map Char.toUpper)⟩

/-- The parsing step of on_message in currency.py: same main branch as
v10.py, but a first token that fails the currency pattern still produces
an intent via the fallback branch (the later `if base_currency:` test is
always true there, since tokens are non-empty). -/
def parse_currency (raw : List Char) : Option CurrencyIntent :=
  match tokens raw with
  | [] => none
  | first :: rest =>
    match currencyAmountMatch first with
    | some (letters, suffix) => some (matchedIntent letters suffix rest)
    | none => some (fallbackIntent first rest)

/-- The rate-line chunking loop of handle_currency_command (v10.py lines
414-422, version4.py lines 291-299): `cur` is `current_chunk`; a line
whose addition (plus one newline character) would push the accumulator
past 1900 characters causes the accumulator to be emitted and replaced
by the bare line, otherwise a newline and the line are appended; a final
non-empty accumulator is emitted after the loop. -/
def chunksAux (cur : List Char) : List (List Char) → List (List Char)
  | [] => if cur = [] then [] else [cur]
  | l :: ls =>
    if 1900 < cur.length + l.length + 1 then
      cur :: chunksAux l ls
    else
      chunksAux (cur ++ '\n' :: l) ls

/-- The chunking loop started, as in the source, with an empty
accumulator. -/
def chunks (lines : List (List Char)) : List (List Char) :=
  chunksAux [] lines

/-- Rejoin emitted chunks with one newline at each chunk boundary (the
reading of the round-trip property in the specification). -/
def nlJoin : List (List Char) → List Char
  | [] => []
  | [c] => c
  | c :: cs => c ++ '\n' :: nlJoin cs

/-- All the lines of a list, each preceded by one newline. -/
def nlTail : List (List Char) → List Char
  | [] => []
  | l :: ls => '\n' :: (l ++ nlTail ls)

/-- Split a character list at newline characters. -/
def splitNl : List Char → List (List Char)
  | [] => [[]]
  | c :: cs =>
    match splitNl cs with
    | [] => [[c]]
    | l :: ls => if c = '\n' then [] :: l :: ls else (c :: l) :: ls

/-! Character-class facts used to relate the tokenizer and the two
regular expressions. -/

theorem uint32_toNat_le {a b : UInt32} (h : a ≤ b) : a.toNat ≤ b.toNat := h

theorem isWhitespace_cases {c : Char} (h : c.isWhitespace = true) :
    c = ' ' ∨ c = '\t' ∨ c = '\x0d' ∨ c = '\n' := by
  have := (by simpa [Char.isWhitespace] using h :
    ((c = ' ' ∨ c = '\t') ∨ c = '\x0d') ∨ c = '\n')
  tauto

theorem isAlpha_not_ws {c : Char} (h : c.isAlpha = true) :
    c.isWhitespace = false := by
  cases hw : c.isWhitespace
  · rfl
  · rcases isWhitespace_cases hw with rfl | rfl | rfl | rfl <;> simp at h

theorem isDigit_not_ws {c : Char} (h : c.isDigit = true) :
    c.isWhitespace = false := by
  cases hw : c.isWhitespace
  · rfl
  · rcases isWhitespace_cases hw with rfl | rfl | rfl | rfl <;> simp at h

theorem isDigitOrDot_not_ws {c : Char} (h : c.isDigit = true ∨ c = '.') :
    c.isWhitespace = false := by
  rcases h with h | rfl
  · exact isDigit_not_ws h
  · decide

theorem isDigit_not_isAlpha {c : Char} (h : c.isDigit = true) :
    c.isAlpha = false := by
  simp only [Char.isDigit, Bool.and_eq_true, decide_eq_true_eq] at h
  simp only [Char.isAlpha, Char.isUpper, Char.isLower, Bool.or_eq_false_iff,
    Bool.and_eq_false_iff, decide_eq_false_iff_not]
  obtain ⟨h1, h2⟩ := h
  have h2' := uint32_toNat_le h2
  have e1 : (57 : UInt32).toNat = 57 := rfl
  have e2 : (65 : UInt32).toNat = 65 := rfl
  have e3 : (97 : UInt32).toNat = 97 := rfl
  constructor
  · left
    intro hc
    have := uint32_toNat_le hc
    omega
  · left
    intro hc
    have := uint32_toNat_le hc
    omega

theorem isDigitOrDot_not_isAlpha {c : Char} (h : c.isDigit = true ∨ c = '.') :
    c.isAlpha = false := by
  rcases h with h | rfl
  · exact isDigit_not_isAlpha h
  · decide

theorem isDigit_ne_dot {c : Char} (h : c.isDigit = true) : c ≠ '.' := by
  rintro rfl
  exact absurd h (by decide)

/-! Tokenizer lemmas: how `tokens` acts on whitespace-free blocks and on
separating spaces. -/

theorem tokensGo_append_noWs {t : List Char}
    (h : ∀ c ∈ t, c.isWhitespace = false) :
    ∀ cur rest, tokensGo cur (t ++ rest) = tokensGo (cur ++ t) rest := by
  induction t with
  | nil => intro cur rest; simp
  | cons c t ih =>
    intro cur rest
    have hc : c.isWhitespace = false := h c (by simp)
    simp only [List.cons_append, tokensGo, hc, Bool.false_eq_true, if_false]
    have step := ih (fun d hd => h d (by simp [hd])) (cur ++ [c]) rest
    rw [show tokensGo (cur ++ [c]) (t.append rest) =
        tokensGo (cur ++ [c]) (t ++ rest) from rfl, step]
    simp

theorem tokens_single {t : List Char} (h : ∀ c ∈ t, c.isWhitespace = false)
    (hne : t ≠ []) : tokens t = [t] := by
  have := tokensGo_append_noWs h [] []
  simp only [List.append_nil, List.nil_append] at this
  rw [tokens, this, tokensGo, if_neg hne]

theorem tokens_sep {t : List Char} (r : List Char)
    (h : ∀ c ∈ t, c.isWhitespace = false) (hne : t ≠ []) :
    tokens (t ++ ' ' :: r) = t :: tokens r := by
  have := tokensGo_append_noWs h [] (' ' :: r)
  simp only [List.nil_append] at this
  rw [tokens, this, tokensGo]
  simp [hne, tokens]

theorem tokens_ws_only {raw : List Char}
    (h : ∀ c ∈ raw, c.isWhitespace = true) : tokens raw = [] := by
  induction raw with
  | nil => rfl
  | cons c cs ih =>
    rw [tokens, tokensGo]
    simp only [h c (by simp), if_true, if_pos rfl]
    exact ih (fun d hd => h d (by simp [hd]))

/-! takeWhile/dropWhile over a block-plus-remainder split. -/

theorem takeWhile_dropWhile_append {p : Char → Bool} {t r : List Char}
    (ht : ∀ c ∈ t, p c = true) (hr : ∀ c, r.head? = some c → p c = false) :
    (t ++ r).takeWhile p = t ∧ (t ++ r).dropWhile p = r := by
  induction t with
  | nil =>
    cases r with
    | nil => simp
    | cons c cs =>
      have := hr c rfl
      simp [List.takeWhile_cons, List.dropWhile_cons, this]
  | cons c t ih =>
    have hc := ht c (by simp)
    have ⟨ih1, ih2⟩ := ih (fun d hd => ht d (by simp [hd]))
    simp [List.takeWhile_cons, List.dropWhile_cons, hc, ih1, ih2]

/-! Chunking-loop lemmas. -/

/-- Every value the loop can emit is either within the budget, the
incoming accumulator itself, or one of the remaining input lines (the
latter only through the reset branch). -/
theorem chunksAux_mem (ls : List (List Char)) :
    ∀ cur c, c ∈ chunksAux cur ls →
      c.length ≤ 1900 ∨ c = cur ∨ c ∈ ls := by
  induction ls with
  | nil =>
    intro cur c hc
    rw [chunksAux] at hc
    split at hc
    · simp at hc
    · simp only [List.mem_singleton] at hc
      exact Or.inr (Or.inl hc)
  | cons l ls ih =>
    intro cur c hc
    rw [chunksAux] at hc
    split at hc
    · rcases List.mem_cons.mp hc with rfl | h2
      · exact Or.inr (Or.inl rfl)
      · rcases ih l c h2 with h | rfl | h
        · exact Or.inl h
        · exact Or.inr (Or.inr (by simp))
        · exact Or.inr (Or.inr (by simp [h]))
    · rename_i hfit
      rcases ih (cur ++ '\n' :: l) c hc with h | rfl | h
      · exact Or.inl h
      · refine Or.inl ?_
        simp only [List.length_append, List.length_cons]
        omega
      · exact Or.inr (Or.inr (by simp [h]))

/-- A loop started on a non-empty accumulator emits at least one chunk. -/
theorem chunksAux_ne_nil (ls : List (List Char)) :
    ∀ cur, cur ≠ [] → chunksAux cur ls ≠ [] := by
  induction ls with
  | nil =>
    intro cur hcur
    rw [chunksAux, if_neg hcur]
    simp
  | cons l ls ih =>
    intro cur hcur
    rw [chunksAux]
    split
    · simp
    · exact ih (cur ++ '\n' :: l) (by simp)

theorem nlJoin_cons_of_ne {c : List Char} {R : List (List Char)}
    (h : R ≠ []) : nlJoin (c :: R) = c ++ '\n' :: nlJoin R := by
  cases R with
  | nil => exact absurd rfl h
  | cons r rs => rfl

theorem nlJoin_eq_head_tail (l : List Char) (ls : List (List Char)) :
    nlJoin (l :: ls) = l ++ nlTail ls := by
  induction ls generalizing l with
  | nil => simp [nlJoin, nlTail]
  | cons l2 ls ih =>
    rw [nlJoin_cons_of_ne (by simp), ih l2, nlTail]

/-- The heart of the round-trip analysis: rejoining the chunks the loop
emits reproduces the accumulator followed by every remaining line, each
preceded by one newline — in particular the very first line also picks
up a newline, either inside the first chunk (append branch from the
empty accumulator) or at the boundary after an empty first chunk. -/
theorem nlJoin_chunksAux (ls : List (List Char)) (h : ∀ l ∈ ls, l ≠ []) :
    ∀ cur, nlJoin (chunksAux cur ls) = cur ++ nlTail ls := by
  induction ls with
  | nil =>
    intro cur
    rw [chunksAux]
    split
    · rename_i hcur
      simp [hcur, nlJoin, nlTail]
    · simp [nlJoin, nlTail]
  | cons l ls ih =>
    intro cur
    rw [chunksAux]
    split
    · have hne := chunksAux_ne_nil ls l (h l (by simp))
      rw [nlJoin_cons_of_ne hne, ih (fun x hx => h x (by simp [hx])) l,
        nlTail]
    · rw [ih (fun x hx => h x (by simp [hx])) (cur ++ '\n' :: l), nlTail]
      simp

theorem splitNl_ne_nil (s : List Char) : splitNl s ≠ [] := by
  induction s with
  | nil => simp [splitNl]
  | cons c cs ih =>
    rw [splitNl]
    cases h : splitNl cs with
    | nil => simp
    | cons l ls =>
      by_cases hc : c = '\n' <;> simp [hc]

theorem splitNl_no_nl {s : List Char} (h : ('\n' : Char) ∉ s) :
    splitNl s = [s] := by
  induction s with
  | nil => rfl
  | cons c cs ih =>
    have hc : c ≠ '\n' := fun e => h (by simp [e])
    rw [splitNl, ih (fun e => h (by simp [e]))]
    simp [hc]

theorem splitNl_append {xs : List Char} (h : ('\n' : Char) ∉ xs) :
    ∀ ys l ls, splitNl ys = l :: ls →
      splitNl (xs ++ ys) = (xs ++ l) :: ls := by
  induction xs with
  | nil => intro ys l ls hy; simpa using hy
  | cons c cs ih =>
    intro ys l ls hy
    have hc : c ≠ '\n' := fun e => h (by simp [e])
    rw [List.cons_append, splitNl,
      ih (fun e => h (by simp [e])) ys l ls hy]
    simp [hc]

theorem splitNl_nl_cons (ys : List Char) :
    splitNl ('\n' :: ys) = [] :: splitNl ys := by
  rw [splitNl]
  cases h : splitNl ys with
  | nil => exact absurd h (splitNl_ne_nil ys)
  | cons l ls => simp

theorem splitNl_nlJoin (lines : List (List Char)) (h0 : lines ≠ [])
    (h : ∀ l ∈ lines, ('\n' : Char) ∉ l) :
    splitNl (nlJoin lines) = lines := by
  induction lines with
  | nil => exact absurd rfl h0
  | cons l ls ih =>
    cases ls with
    | nil => exact splitNl_no_nl (h l (by simp))
    | cons l2 ls2 =>
      rw [nlJoin_cons_of_ne (by simp)]
      have hrec := ih (by simp) (fun x hx => h x (by simp [hx]))
      have hstep : splitNl ('\n' :: nlJoin (l2 :: ls2)) =
          [] :: l2 :: ls2 := by
        rw [splitNl_nl_cons, hrec]
      have := splitNl_append (h l (by simp)) ('\n' :: nlJoin (l2 :: ls2))
        [] (l2 :: ls2) hstep
      rw [this]
      simp

/-! Parser helper lemmas. -/

theorem pyFloat_facts {s : List Char} {v : ℚ} (h : pyFloat s = some v) :
    digitsDotForm s ∧ s.any Char.isDigit = true := by
  rw [pyFloat] at h
  split at h
  · assumption
  · exact absurd h (by simp)

theorem pyFloat_nonneg {s : List Char} {v : ℚ} (h : pyFloat s = some v) :
    0 ≤ v := by
  rw [pyFloat] at h
  split at h
  · simp only [Option.some.injEq] at h
    rw [← h]
    have h1 : (0 : ℚ) ≤ (natOfDigits (s.takeWhile Char.isDigit) : ℚ) := by
      positivity
    have h2 : (0 : ℚ) ≤ (natOfDigits ((s.dropWhile Char.isDigit).drop 1) : ℚ) /
        (10 : ℚ) ^ ((s.dropWhile Char.isDigit).drop 1).length := by
      positivity
    linarith
  · exact absurd h (by simp)

theorem pyFloat_ne_nil {s : List Char} {v : ℚ} (h : pyFloat s = some v) :
    s ≠ [] := by
  rintro rfl
  have := (pyFloat_facts h).2
  simp at this

theorem digitsDotForm_noWs {s : List Char} (h : digitsDotForm s) :
    ∀ c ∈ s, c.isWhitespace = false :=
  fun c hc => isDigitOrDot_not_ws (h.1 c hc)

/-- The first-token match on a token built from a letter block followed
by a suffix in the digits-and-dot language captures exactly that
decomposition. -/
theorem currencyAmountMatch_split {C A : List Char}
    (hC : ∀ c ∈ C, c.isAlpha = true) (h2 : 2 ≤ C.length)
    (h4 : C.length ≤ 4) (hA : digitsDotForm A) :
    currencyAmountMatch (C ++ A) = some (C, A) := by
  have hhead : ∀ c, A.head? = some c → c.isAlpha = false := by
    intro c hc
    cases A with
    | nil => simp at hc
    | cons a A' =>
      simp only [List.head?_cons, Option.some.injEq] at hc
      exact hc ▸ isDigitOrDot_not_isAlpha (hA.1 a (by simp))
  obtain ⟨ht, hd⟩ := takeWhile_dropWhile_append hC hhead
  rw [currencyAmountMatch]
  simp only [ht, hd]
  rw [if_pos ⟨h2, h4, hA⟩]

/-- The second-token pattern only accepts strings that `float()` parses:
digits, then optionally one dot and more digits. -/
theorem isNumericArg_pyFloat {t : List Char} (h : isNumericArg t = true) :
    ∃ v, pyFloat t = some v := by
  have hsplit := List.takeWhile_append_dropWhile Char.isDigit t
  have htake : ∀ c ∈ t.takeWhile Char.isDigit, c.isDigit = true :=
    fun c hc => List.mem_takeWhile_imp hc
  rw [isNumericArg] at h
  split at h
  · rename_i hdrop
    have ht : t = t.takeWhile Char.isDigit := by
      conv_lhs => rw [← hsplit]
      rw [hdrop, List.append_nil]
    have hne : t.takeWhile Char.isDigit ≠ [] := by
      intro hx
      rw [hx] at h
      simp at h
    have hcond : digitsDotForm t ∧ t.any Char.isDigit = true := by
      constructor
      · constructor
        · intro c hc
          rw [ht] at hc
          exact Or.inl (htake c hc)
        · rw [List.count_eq_zero.mpr]
          · omega
          · intro hmem
            rw [ht] at hmem
            exact isDigit_ne_dot (htake _ hmem) rfl
      · cases hcc : t.takeWhile Char.isDigit with
        | nil => exact absurd hcc hne
        | cons a as =>
          rw [ht, hcc]
          simp [htake a (by rw [hcc]; simp)]
    exact ⟨_, by rw [pyFloat, if_pos hcond]⟩
  · rename_i d2 hdrop
    simp only [Bool.and_eq_true, Bool.not_eq_eq_eq_not, Bool.not_true,
      List.all_eq_true] at h
    obtain ⟨⟨h1, h2⟩, h3⟩ := h
    have htt : t = t.takeWhile Char.isDigit ++ '.' :: d2 := by
      conv_lhs => rw [← hsplit]
      rw [hdrop]
    have h1' : t.takeWhile Char.isDigit ≠ [] := by
      intro hx
      rw [hx] at h1
      simp at h1
    have hcond : digitsDotForm t ∧ t.any Char.isDigit = true := by
      constructor
      · constructor
        · intro c hc
          rw [htt] at hc
          rcases List.mem_append.mp hc with hm | hm
          · exact Or.inl (htake c hm)
          · rcases List.mem_cons.mp hm with rfl | hm2
            · exact Or.inr rfl
            · exact Or.inl (h3 c hm2)
        · rw [htt, List.count_append, List.count_eq_zero.mpr, List.count_cons]
          · have hz : d2.count '.' = 0 := by
              rw [List.count_eq_zero.mpr]
              intro hmem
              exact isDigit_ne_dot (h3 _ hmem) rfl
            simp [hz]
          · intro hmem
            exact isDigit_ne_dot (htake _ hmem) rfl
      · cases hcc : t.takeWhile Char.isDigit with
        | nil => exact absurd hcc h1'
        | cons a as =>
          rw [htt, hcc]
          simp [htake a (by rw [hcc]; simp)]
    exact ⟨_, by rw [pyFloat, if_pos hcond]⟩
  · simp at h

theorem fallbackIntent_base (first : List Char) (rest : List (List Char)) :
    (fallbackIntent first rest).base = first.map Char.toUpper := by
  cases rest with
  | nil => rfl
  | cons second rest2 =>
    by_cases hn : isNumericArg second = true
    · cases hf : pyFloat second <;> simp [fallbackIntent, hn, hf]
    · simp only [Bool.not_eq_true] at hn
      simp [fallbackIntent, hn]

theorem matchedIntent_base (letters suffix : List Char)
    (rest : List (List Char)) :
    (matchedIntent letters suffix rest).base = letters.map Char.toUpper := by
  cases rest with
  | nil => rfl
  | cons second rest2 =>
    by_cases hn : isNumericArg second = true
    · cases hf : pyFloat second <;> simp [matchedIntent, hn, hf]
    · simp only [Bool.not_eq_true] at hn
      simp [matchedIntent, hn]

theorem matchedIntent_amount_nonneg (letters suffix : List Char)
    (rest : List (List Char)) :
    0 ≤ (matchedIntent letters suffix rest).amount := by
  have hamt : (0 : ℚ) ≤ if suffix = [] then 1 else (pyFloat suffix).getD 1 := by
    split
    · norm_num
    · cases hf : pyFloat suffix with
      | none => simp
      | some v => simpa using pyFloat_nonneg hf
  cases rest with
  | nil => simpa [matchedIntent] using hamt
  | cons second rest2 =>
    by_cases hn : isNumericArg second = true
    · cases hf : pyFloat second with
      | none => simpa [matchedIntent, hn, hf] using hamt
      | some v =>
        simpa [matchedIntent, hn, hf] using pyFloat_nonneg hf
    · simp only [Bool.not_eq_true] at hn
      simpa [matchedIntent, hn] using hamt

/-! Claim theorems about the chunking loop. -/

/-- C1 (counterexample): the round-trip fails as stated.  On the single
line "a" the loop emits the chunk "\na" (the append branch adds a
newline even to the empty initial accumulator), so splitting the
rejoined chunks on newline yields an extra empty line in front of the
original sequence. -/
theorem c1_roundtrip_cex :
    splitNl (nlJoin (chunks [['a']])) = [[], ['a']] ∧
    splitNl (nlJoin (chunks [['a']])) ≠ [['a']] := by
  constructor
  · decide
  · decide

/-- C1 (amended): for every non-empty sequence of non-empty,
newline-free lines, splitting the newline-rejoined chunks emitted by the
chunking loop yields the original line sequence in order with exactly
one extra empty line prepended — no original line lost, duplicated or
reordered, and no other extra line. -/
theorem c1_roundtrip_amended (lines : List (List Char)) (h0 : lines ≠ [])
    (h1 : ∀ l ∈ lines, l ≠ []) (h2 : ∀ l ∈ lines, ('\n' : Char) ∉ l) :
    splitNl (nlJoin (chunks lines)) = [] :: lines := by
  rw [chunks, nlJoin_chunksAux lines h1 [], List.nil_append]
  cases lines with
  | nil => exact absurd rfl h0
  | cons l ls =>
    have hstep : nlTail (l :: ls) = '\n' :: nlJoin (l :: ls) := by
      rw [nlTail, nlJoin_eq_head_tail]
    rw [hstep, splitNl_nl_cons, splitNl_nlJoin (l :: ls) (by simp) h2]

/-- C1 (witness for the amended theorem) at the two lines "a", "b". -/
theorem c1_roundtrip_witness :
    splitNl (nlJoin (chunks [['a'], ['b']])) = [] :: [['a'], ['b']] :=
  c1_roundtrip_amended [['a'], ['b']] (by decide) (by decide) (by decide)

/-- C2: every chunk emitted by the loop has length at most 1900, except
a chunk that is a single input line (emitted whole, never truncated or
split) whose own length exceeds 1900; the loop is a total function, so
it never fails. -/
theorem c2_chunk_bound (lines : List (List Char)) (c : List Char)
    (hc : c ∈ chunks lines) :
    c.length ≤ 1900 ∨ (1900 < c.length ∧ c ∈ lines) := by
  rcases chunksAux_mem lines [] c hc with h | rfl | h
  · exact Or.inl h
  · exact Or.inl (by simp)
  · rcases le_or_lt c.length 1900 with hle | hlt
    · exact Or.inl hle
    · exact Or.inr ⟨hlt, h⟩

/-- C2 (witness) at the single line "a", whose chunk is "\na". -/
theorem c2_chunk_bound_witness :
    (['\n', 'a'] : List Char).length ≤ 1900 ∨
      (1900 < (['\n', 'a'] : List Char).length ∧
        (['\n', 'a'] : List Char) ∈ [[('a' : Char)]]) :=
  c2_chunk_bound [['a']] ['\n', 'a'] (by decide)

/-- C10: when the first line is at least 1900 characters long, the check
len("") + len(line) + 1 > 1900 already fires on the empty accumulator,
so the loop emits the empty string as its first chunk and the oversized
line itself as the second chunk. -/
theorem c10_empty_first_chunk (l : List Char) (ls : List (List Char))
    (h : 1900 ≤ l.length) :
    ∃ rest, chunks (l :: ls) = [] :: l :: rest := by
  rw [chunks, chunksAux, if_pos (by simp; omega)]
  cases ls with
  | nil =>
    refine ⟨[], ?_⟩
    rw [chunksAux, if_neg (by rintro rfl; simp at h)]
  | cons l2 ls2 =>
    refine ⟨chunksAux l2 ls2, ?_⟩
    rw [chunksAux, if_pos (by omega)]

/-- C10 (witness) at a first line of exactly 1900 characters. -/
theorem c10_empty_first_chunk_witness :
    ∃ rest, chunks [List.replicate 1900 'a'] =
      [] :: List.replicate 1900 'a' :: rest :=
  c10_empty_first_chunk (List.replicate 1900 'a') []
    (le_of_eq (List.length_replicate 1900 'a').symm)

/-- Evaluation helper for `pyFloat` at concrete inputs: the digit
computations are discharged by `rfl` and only the final rational
expression is left to arithmetic. -/
theorem pyFloat_eval (s : List Char) (n1 n2 k : ℕ)
    (hcond : digitsDotForm s ∧ s.any Char.isDigit = true)
    (h1 : natOfDigits (s.takeWhile Char.isDigit) = n1)
    (h2 : natOfDigits ((s.dropWhile Char.isDigit).drop 1) = n2)
    (hk : ((s.dropWhile Char.isDigit).drop 1).length = k) :
    pyFloat s = some ((n1 : ℚ) + (n2 : ℚ) / (10 : ℚ) ^ k) := by
  rw [pyFloat, if_pos hcond]
  simp only [h1, h2, hk]

/-! Claim theorems about the parsers. -/

/-- C3 (counterexample): parsing "usd0" succeeds and produces amount 0,
which is not strictly positive — the explicit attached amount 0 is
accepted verbatim, with no positivity validation anywhere in the
handler. -/
theorem c3_positive_cex :
    parse_v10 ['u', 's', 'd', '0'] = some ⟨['U', 'S', 'D'], 0, none⟩ ∧
      ¬ (0 : ℚ) < 0 := by
  constructor
  · have h1 : tokens ['u', 's', 'd', '0'] = [['u', 's', 'd', '0']] := by
      decide
    have h2 : currencyAmountMatch ['u', 's', 'd', '0'] =
        some (['u', 's', 'd'], ['0']) := by decide
    have h3 : pyFloat ['0'] = some 0 := by
      rw [pyFloat_eval ['0'] 0 0 0 (by decide) rfl rfl rfl]
      norm_num
    simp only [parse_v10, h1, h2]
    simp [matchedIntent, h3]
  · simp

/-- C3 (amended): whenever parsing succeeds and produces a
CurrencyIntent, the amount is non-negative — the default 1.0, or an
explicit non-negative decimal; amounts can be zero (when the user writes
an explicit 0) but never negative, since neither regular expression
admits a sign. -/
theorem c3_amount_nonneg (raw : List Char) (i : CurrencyIntent)
    (h : parse_v10 raw = some i) : 0 ≤ i.amount := by
  cases htok : tokens raw with
  | nil =>
    simp only [parse_v10, htok] at h
    exact absurd h (by simp)
  | cons first rest =>
    cases hm : currencyAmountMatch first with
    | none =>
      simp only [parse_v10, htok, hm] at h
      exact absurd h (by simp)
    | some p =>
      obtain ⟨L, R⟩ := p
      simp only [parse_v10, htok, hm, Option.some.injEq] at h
      rw [← h]
      exact matchedIntent_amount_nonneg L R rest

/-- C3 (witness for the amended theorem) at the input "usd". -/
theorem c3_amount_nonneg_witness :
    0 ≤ (CurrencyIntent.mk ['U', 'S', 'D'] 1 none).amount :=
  c3_amount_nonneg ['u', 's', 'd'] ⟨['U', 'S', 'D'], 1, none⟩
    (by decide)

/-- C4 (counterexample): on the input "123" — whose first token fails
the currency pattern — the v10.py handler indeed returns without an
intent, but the currency.py handler (the claim's second cited code
location) produces the intent with base currency "123" instead of
NotRecognized. -/
theorem c4_notrecognized_cex :
    parse_currency ['1', '2', '3'] = some ⟨['1', '2', '3'], 1, none⟩ ∧
      parse_currency ['1', '2', '3'] ≠ none := by
  constructor
  · decide
  · decide

/-- C4 (amended): empty or whitespace-only input yields NotRecognized in
both handlers; an input whose first token fails the currency pattern
yields NotRecognized in v10.py, while in currency.py it produces an
intent whose base currency is the upper-cased first token. -/
theorem c4_notrecognized_amended (raw : List Char) :
    ((∀ c ∈ raw, c.isWhitespace = true) →
      parse_v10 raw = none ∧ parse_currency raw = none) ∧
    (∀ first rest, tokens raw = first :: rest →
      currencyAmountMatch first = none →
      parse_v10 raw = none ∧
        ∃ i, parse_currency raw = some i ∧
          i.base = first.map Char.toUpper) := by
  constructor
  · intro hws
    have htok := tokens_ws_only hws
    constructor
    · simp [parse_v10, htok]
    · simp [parse_currency, htok]
  · intro first rest htok hm
    constructor
    · simp [parse_v10, htok, hm]
    · refine ⟨fallbackIntent first rest, ?_, fallbackIntent_base first rest⟩
      simp [parse_currency, htok, hm]

/-- C4 (witness for the amended theorem): whitespace-only input "  " for
the first part, "123" for the second. -/
theorem c4_notrecognized_witness :
    (parse_v10 [' ', ' '] = none ∧ parse_currency [' ', ' '] = none) ∧
    (parse_v10 ['1', '2', '3'] = none ∧
      ∃ i, parse_currency ['1', '2', '3'] = some i ∧
        i.base = ['1', '2', '3'].map Char.toUpper) :=
  ⟨(c4_notrecognized_amended [' ', ' ']).1 (by decide),
   (c4_notrecognized_amended ['1', '2', '3']).2 ['1', '2', '3'] []
     (by decide) (by decide)⟩

/-- Inversion of a successful first-token match: the captured groups are
the leading letter run and the remaining suffix, with the pattern's
length and shape constraints. -/
theorem currencyAmountMatch_inv {tok L R : List Char}
    (h : currencyAmountMatch tok = some (L, R)) :
    L = tok.takeWhile Char.isAlpha ∧ R = tok.dropWhile Char.isAlpha ∧
      2 ≤ L.length ∧ L.length ≤ 4 ∧ digitsDotForm R := by
  simp only [currencyAmountMatch] at h
  split at h
  · rename_i hcond
    simp only [Option.some.injEq, Prod.mk.injEq] at h
    obtain ⟨hL, hR⟩ := h
    refine ⟨hL.symm, hR.symm, ?_, ?_, ?_⟩
    · rw [← hL]
      exact hcond.1
    · rw [← hL]
      exact hcond.2.1
    · rw [← hR]
      exact hcond.2.2
  · exact absurd h (by simp)

/-- C8: the parsing step is total — for every input string it yields
either NotRecognized or a structured intent whose base currency is
present as a two-to-four-letter upper-cased code; the float()
conversions never surface an error because each one sits behind a
try/except that falls back to a default (embedded as the always-handled
`none` branch of `pyFloat`). -/
theorem c8_parse_total (raw : List Char) :
    parse_v10 raw = none ∨
      ∃ i, parse_v10 raw = some i ∧
        2 ≤ i.base.length ∧ i.base.length ≤ 4 := by
  cases htok : tokens raw with
  | nil =>
    left
    simp only [parse_v10, htok]
  | cons first rest =>
    cases hm : currencyAmountMatch first with
    | none =>
      left
      simp only [parse_v10, htok, hm]
    | some p =>
      obtain ⟨L, R⟩ := p
      obtain ⟨hL, hR, h2, h4, hd⟩ := currencyAmountMatch_inv hm
      right
      refine ⟨matchedIntent L R rest, by simp only [parse_v10, htok, hm], ?_, ?_⟩
      · rw [matchedIntent_base, List.length_map]
        exact h2
      · rw [matchedIntent_base, List.length_map]
        exact h4

/-- C9 (counterexample): on the input "123" the two parsing steps
disagree — v10.py yields NotRecognized while currency.py produces an
intent with base currency "123". -/
theorem c9_equiv_cex :
    parse_v10 ['1', '2', '3'] = none ∧
      parse_currency ['1', '2', '3'] ≠ parse_v10 ['1', '2', '3'] := by
  constructor
  · decide
  · decide

/-- C9 (amended): the two parsing steps agree on every input whose first
token matches the currency pattern (their main branches are duplicated
code), and on empty or whitespace-only input; they diverge exactly when
a first token exists but fails the pattern, where v10.py yields
NotRecognized and currency.py produces a fallback intent. -/
theorem c9_equiv_amended (raw : List Char) :
    (tokens raw = [] → parse_v10 raw = none ∧ parse_currency raw = none) ∧
    (∀ first rest L R, tokens raw = first :: rest →
      currencyAmountMatch first = some (L, R) →
      parse_currency raw = parse_v10 raw) := by
  constructor
  · intro htok
    exact ⟨by simp only [parse_v10, htok], by simp only [parse_currency, htok]⟩
  · intro first rest L R htok hm
    simp only [parse_v10, parse_currency, htok, hm]

/-- C9 (witness for the amended theorem): empty input for the first
part, "usd 5" for the second. -/
theorem c9_equiv_witness :
    (parse_v10 [] = none ∧ parse_currency [] = none) ∧
      parse_currency ['u', 's', 'd', ' ', '5'] =
        parse_v10 ['u', 's', 'd', ' ', '5'] :=
  ⟨(c9_equiv_amended []).1 (by decide),
   (c9_equiv_amended ['u', 's', 'd', ' ', '5']).2 ['u', 's', 'd'] [['5']]
     ['u', 's', 'd'] [] (by decide) (by decide)⟩

/-- C5: for every two-to-four-letter code C (any letter case) and
positive decimal A in digits-with-optional-dot form, parsing the single
token C immediately followed by A yields base upper(C), amount equal to
A's value, and no target; with a following non-numeric token T the
target becomes upper(T) while the attached amount is kept. -/
theorem c5_attached_amount (C A T : List Char) (v : ℚ)
    (hC : ∀ c ∈ C, c.isAlpha = true) (hC2 : 2 ≤ C.length)
    (hC4 : C.length ≤ 4)
    (hA : pyFloat A = some v) (hv : 0 < v)
    (hT : T ≠ []) (hTw : ∀ c ∈ T, c.isWhitespace = false)
    (hTn : isNumericArg T = false) :
    parse_v10 (C ++ A) = some ⟨C.map Char.toUpper, v, none⟩ ∧
    parse_v10 (C ++ A ++ ' ' :: T) =
      some ⟨C.map Char.toUpper, v, some (T.map Char.toUpper)⟩ := by
  obtain ⟨hform, hany⟩ := pyFloat_facts hA
  have hAne : A ≠ [] := pyFloat_ne_nil hA
  have hCAne : C ++ A ≠ [] := by simp [hAne]
  have hnoWsCA : ∀ c ∈ C ++ A, c.isWhitespace = false := by
    intro c hc
    rcases List.mem_append.mp hc with hm | hm
    · exact isAlpha_not_ws (hC c hm)
    · exact digitsDotForm_noWs hform c hm
  have hmatch : currencyAmountMatch (C ++ A) = some (C, A) :=
    currencyAmountMatch_split hC hC2 hC4 hform
  constructor
  · have htok1 : tokens (C ++ A) = [C ++ A] := tokens_single hnoWsCA hCAne
    simp only [parse_v10, htok1, hmatch]
    simp [matchedIntent, hAne, hA]
  · have htok2 : tokens (C ++ A ++ ' ' :: T) = [C ++ A, T] := by
      rw [tokens_sep T hnoWsCA hCAne, tokens_single hTw hT]
    simp only [parse_v10, htok2, hmatch]
    simp [matchedIntent, hAne, hA, hTn]

/-- C5 (witness) at "usd100" and "usd100 myr". -/
theorem c5_attached_amount_witness :
    parse_v10 ['u', 's', 'd', '1', '0', '0'] =
      some ⟨['U', 'S', 'D'], 100, none⟩ ∧
    parse_v10 ['u', 's', 'd', '1', '0', '0', ' ', 'm', 'y', 'r'] =
      some ⟨['U', 'S', 'D'], 100, some ['M', 'Y', 'R']⟩ :=
  c5_attached_amount ['u', 's', 'd'] ['1', '0', '0'] ['m', 'y', 'r'] 100
    (by decide) (by decide) (by decide)
    (by rw [pyFloat_eval ['1', '0', '0'] 100 0 0 (by decide) rfl rfl rfl]
        norm_num)
    (by norm_num) (by decide) (by decide) (by decide)

/-- C6: whenever the first token matches the currency pattern and the
second token matches the plain decimal pattern, the parsed amount is the
second token's value (overriding any attached amount), and an existing
third token becomes the upper-cased target unconditionally, with no
validation of its shape. -/
theorem c6_explicit_amount (raw first second L R : List Char)
    (rest2 : List (List Char))
    (htok : tokens raw = first :: second :: rest2)
    (hm : currencyAmountMatch first = some (L, R))
    (hn : isNumericArg second = true) :
    ∃ v, pyFloat second = some v ∧
      parse_v10 raw =
        some ⟨L.map Char.toUpper, v,
          (rest2.head?).map (List.map Char.toUpper)⟩ := by
  obtain ⟨v, hv⟩ := isNumericArg_pyFloat hn
  refine ⟨v, hv, ?_⟩
  simp only [parse_v10, htok, hm]
  simp [matchedIntent, hn, hv]

/-- C6 (witness) at "us2 5 !!": the attached amount 2 is overridden by
the explicit amount 5 and the shapeless third token becomes the target. -/
theorem c6_explicit_amount_witness :
    ∃ v, pyFloat ['5'] = some v ∧
      parse_v10 ['u', 's', '2', ' ', '5', ' ', '!', '!'] =
        some ⟨['U', 'S'], v, some ['!', '!']⟩ :=
  c6_explicit_amount ['u', 's', '2', ' ', '5', ' ', '!', '!'] ['u', 's', '2']
    ['5'] ['u', 's'] ['2'] [['!', '!']] (by decide) (by decide) (by decide)

/-- C7: whenever the first token carries no parseable numeric suffix and
no numeric second token is supplied, the amount is the default 1.0; in
particular C followed by a non-numeric token T parses to base upper(C),
amount 1.0, target upper(T); a bare code parses to amount 1.0 with no
target; and the present-but-unparseable captured suffix "." is treated
as absent, yielding amount 1.0 rather than an error. -/
theorem c7_default_amount (C T : List Char)
    (hC : ∀ c ∈ C, c.isAlpha = true) (hC2 : 2 ≤ C.length)
    (hC4 : C.length ≤ 4)
    (hT : T ≠ []) (hTw : ∀ c ∈ T, c.isWhitespace = false)
    (hTn : isNumericArg T = false) :
    (∀ raw first rest L R, tokens raw = first :: rest →
      currencyAmountMatch first = some (L, R) → pyFloat R = none →
      (∀ s, rest.head? = some s → isNumericArg s = false) →
      ∃ i, parse_v10 raw = some i ∧ i.amount = 1) ∧
    parse_v10 C = some ⟨C.map Char.toUpper, 1, none⟩ ∧
    parse_v10 (C ++ ' ' :: T) =
      some ⟨C.map Char.toUpper, 1, some (T.map Char.toUpper)⟩ ∧
    parse_v10 (C ++ ['.']) = some ⟨C.map Char.toUpper, 1, none⟩ := by
  have hCne : C ≠ [] := by
    rintro rfl
    simp at hC2
  have hnoWsC : ∀ c ∈ C, c.isWhitespace = false :=
    fun c hc => isAlpha_not_ws (hC c hc)
  have hm0 : currencyAmountMatch C = some (C, []) := by
    have := currencyAmountMatch_split hC hC2 hC4
      (show digitsDotForm [] by decide)
    rwa [List.append_nil] at this
  refine ⟨?_, ?_, ?_, ?_⟩
  · intro raw first rest L R htok hm hfloat hsec
    refine ⟨matchedIntent L R rest, by simp only [parse_v10, htok, hm], ?_⟩
    have hamt : (if R = [] then (1 : ℚ) else (pyFloat R).getD 1) = 1 := by
      split
      · rfl
      · rw [hfloat]
        rfl
    cases rest with
    | nil => simp [matchedIntent, hamt]
    | cons s rest2 =>
      have hns := hsec s rfl
      simp [matchedIntent, hns, hamt]
  · have htok0 : tokens C = [C] := tokens_single hnoWsC hCne
    simp only [parse_v10, htok0, hm0]
    simp [matchedIntent]
  · have htok2 : tokens (C ++ ' ' :: T) = [C, T] := by
      rw [tokens_sep T hnoWsC hCne, tokens_single hTw hT]
    simp only [parse_v10, htok2, hm0]
    simp [matchedIntent, hTn]
  · have hnoWsD : ∀ c ∈ C ++ ['.'], c.isWhitespace = false := by
      intro c hc
      rcases List.mem_append.mp hc with hm | hm
      · exact isAlpha_not_ws (hC c hm)
      · rcases List.mem_singleton.mp hm with rfl
        decide
    have htok3 : tokens (C ++ ['.']) = [C ++ ['.']] :=
      tokens_single hnoWsD (by simp)
    have hm3 : currencyAmountMatch (C ++ ['.']) = some (C, ['.']) :=
      currencyAmountMatch_split hC hC2 hC4 (show digitsDotForm ['.'] by decide)
    have hdot : pyFloat ['.'] = none := by decide
    simp only [parse_v10, htok3, hm3]
    simp [matchedIntent, hdot]

/-- C7 (witness) at C = "usd", T = "myr", and the general part at
"usd.". -/
theorem c7_default_amount_witness :
    ((∃ i, parse_v10 ['u', 's', 'd', '.'] = some i ∧ i.amount = 1) ∧
      parse_v10 ['u', 's', 'd'] = some ⟨['U', 'S', 'D'], 1, none⟩ ∧
      parse_v10 ['u', 's', 'd', ' ', 'm', 'y', 'r'] =
        some ⟨['U', 'S', 'D'], 1, some ['M', 'Y', 'R']⟩ ∧
      parse_v10 ['u', 's', 'd', '.'] = some ⟨['U', 'S', 'D'], 1, none⟩) := by
  have h := c7_default_amount ['u', 's', 'd'] ['m', 'y', 'r']
    (by decide) (by decide) (by decide) (by decide) (by decide) (by decide)
  exact ⟨h.1 ['u', 's', 'd', '.'] ['u', 's', 'd', '.'] [] ['u', 's', 'd']
      ['.'] (by decide) (by decide) (by decide)
      (by intro s hs; simp at hs),
    h.2.1, h.2.2.1, h.2.2.2⟩
